import Mathlib

/-!
Verification development for the `toypack` bundler (`src/bin/lib/Compiler.js`).

The JavaScript `Compiler` class is shallowly embedded as pure Lean functions:

* the `path` module's POSIX string algorithms (`extname`, `join`, `normalize`,
  `dirname`, `relative`, `resolve`) are reimplemented character-by-character
  after Node's `lib/path.js`, since `Compiler` depends on their exact results;
* module source text is represented by its syntax tree (`Expr`), so
  `babylon.parse` is the identity of the embedding and `@babel/generator` is
  modelled by a deterministic printer `render`;
* fallible operations (missing files, malformed `require` arguments, crashing
  loader chains) return `Option`, mirroring thrown exceptions that abort the
  build;
* the unbounded recursion of `buildModule` and of the emitted runtime loader
  is modelled with an explicit `Nat` fuel standing for the call stack: `none`
  at fuel exhaustion corresponds to a recursion that has not yet returned.

Ghost instrumentation (clearly marked below) records observations the
JavaScript discards — the per-module dependency lists in `BuildState.built`
and the factory-execution trace `WState.execs` — so that invariants and
temporal properties can be stated; the faithful fields are unaffected by it.
-/

namespace Toypack

/-! ## POSIX path model (after Node `lib/path.js`) -/

/-- Split a string at every '/' character, like `String.splitOn "/"`,
implemented by structural recursion so that it reduces in the kernel. -/
def splitCharAux : List Char → List Char → List (List Char)
  | [], acc => [acc.reverse]
  | c :: cs, acc => if c = '/' then acc.reverse :: splitCharAux cs [] else splitCharAux cs (c :: acc)

/-- Segments of a path string, separated by '/'. -/
def splitSlash (s : String) : List String :=
  (splitCharAux s.data []).map String.mk

/-- Join segments with '/' (inverse of `splitSlash` on canonical input). -/
def joinSegs : List String → String
  | [] => ""
  | [s] => s
  | s :: rest => s ++ "/" ++ joinSegs rest

/-- Does the string start with '/'? (POSIX absolute path test.) -/
def headIsSlash (s : String) : Bool :=
  match s.data with
  | [] => false
  | c :: _ => c = '/'

/-- Does the string end with '/'? -/
def lastIsSlash (s : String) : Bool :=
  match s.data.getLast? with
  | some c => c = '/'
  | none => false

/-- Segment collapse of Node's `normalizeString`: drops empty and `"."`
segments and resolves `".."`; with `allowAboveRoot` (relative paths) leading
`".."` segments accumulate, without it (absolute paths) they are dropped at
the root.  The first list argument is the reversed accumulator. -/
def collapseSegs (allowAboveRoot : Bool) : List String → List String → List String
  | acc, [] => acc.reverse
  | acc, s :: rest =>
    if s = "" || s = "." then collapseSegs allowAboveRoot acc rest
    else if s = ".." then
      match acc with
      | [] =>
        if allowAboveRoot then collapseSegs allowAboveRoot [".."] rest
        else collapseSegs allowAboveRoot [] rest
      | t :: acc' =>
        if t = ".." then collapseSegs allowAboveRoot (s :: acc) rest
        else collapseSegs allowAboveRoot acc' rest
    else collapseSegs allowAboveRoot (s :: acc) rest

/-- Node `path.posix.normalize`. -/
def posixNormalize (p : String) : String :=
  if p = "" then "."
  else
    let abs := headIsSlash p
    let trail := lastIsSlash p
    let core := joinSegs (collapseSegs (!abs) [] (splitSlash p))
    if core = "" then (if abs then "/" else if trail then "./" else ".")
    else
      let core := if abs then "/" ++ core else core
      if trail then core ++ "/" else core

/-- Node `path.posix.join` restricted to two arguments (the only arity the
compiler uses): concatenate the non-empty arguments with '/' and normalize. -/
def pathJoin (a b : String) : String :=
  if a = "" && b = "" then "."
  else if a = "" then posixNormalize b
  else if b = "" then posixNormalize a
  else posixNormalize (a ++ "/" ++ b)

/-- Node `path.posix.resolve` on a single already-absolute path: collapse the
segments and drop any trailing slash.  (The compiler only ever resolves
absolute paths, so the dependence on `process.cwd()` never arises.) -/
def pathResolveAbs (p : String) : String :=
  "/" ++ joinSegs (collapseSegs false [] (splitSlash p))

/-- Node `path.resolve(base, p)` with `base` absolute. -/
def pathResolve (base p : String) : String :=
  if headIsSlash p then pathResolveAbs p else pathResolveAbs (base ++ "/" ++ p)

/-- Segments of a resolved absolute path ("/" has no segments). -/
def absSegs (p : String) : List String :=
  collapseSegs false [] (splitSlash p)

/-- Length of the longest common prefix of two segment lists. -/
def commonPrefixLen : List String → List String → Nat
  | a :: as, b :: bs => if a = b then commonPrefixLen as bs + 1 else 0
  | _, _ => 0

/-- Node `path.posix.relative` for absolute arguments (the compiler only
relativizes absolute paths against the absolute project root): after
resolving both, one `".."` per remaining source segment followed by the
remaining target segments. -/
def pathRelative (f t : String) : String :=
  if f = t then ""
  else
    let fr := pathResolveAbs f
    let tr := pathResolveAbs t
    if fr = tr then ""
    else
      let fsg := absSegs fr
      let tsg := absSegs tr
      let c := commonPrefixLen fsg tsg
      joinSegs ((fsg.drop c).map (fun _ => "..") ++ tsg.drop c)

/-- Node `path.posix.dirname`, following its right-to-left scan: skip trailing
slashes, cut at the previous slash; special cases for rootless paths and the
root itself. -/
def posixDirname (p : String) : String :=
  if p = "" then "."
  else
    let cs := p.data
    let hasRoot := headIsSlash p
    let step := fun (st : Bool × Option Nat) (i : Nat) =>
      match st with
      | (ms, some e) => (ms, some e)
      | (matchedSlash, none) =>
        if cs.getD i ' ' = '/' then
          if matchedSlash then (true, (none : Option Nat)) else (false, some i)
        else (false, none)
    let r := (((List.range cs.length).drop 1).reverse).foldl step (true, none)
    match r.2 with
    | none => if hasRoot then "/" else "."
    | some e => if hasRoot && e = 1 then "//" else String.mk (cs.take e)

/-- Scanner state of Node `path.posix.extname`. -/
structure ExtScanSt where
  startDot : Option Nat
  startPart : Nat
  endIdx : Option Nat
  matchedSlash : Bool
  preDotState : Int
  done : Bool

/-- One right-to-left step of Node's `extname` scan at index `i`. -/
def extScanStep (cs : List Char) (st : ExtScanSt) (i : Nat) : ExtScanSt :=
  if st.done then st
  else
    let c := cs.getD i ' '
    if c = '/' then
      if !st.matchedSlash then { st with startPart := i + 1, done := true } else st
    else
      let st := if st.endIdx = none then { st with matchedSlash := false, endIdx := some (i + 1) } else st
      if c = '.' then
        match st.startDot with
        | none => { st with startDot := some i }
        | some _ => if st.preDotState ≠ 1 then { st with preDotState := 1 } else st
      else
        if st.startDot ≠ none then { st with preDotState := -1 } else st

/-- Node `path.posix.extname`: the substring from the last '.' of the final
path component to its end, or `""` for dotfiles, `".."`, and names without
a dot. -/
def extname (p : String) : String :=
  let cs := p.data
  let st := ((List.range cs.length).reverse).foldl (extScanStep cs) ⟨none, 0, none, true, 0, false⟩
  match st.startDot, st.endIdx with
  | some sd, some e =>
    if st.preDotState = 0 ∨ (st.preDotState = 1 ∧ sd = e - 1 ∧ sd = st.startPart + 1) then ""
    else String.mk ((cs.drop sd).take (e - sd))
  | _, _ => ""

/-! ## Compiler path helpers (`normalizePath`, `normalizeModuleName`) -/

/-- The `replace(/\\/g, "/")` of `Compiler.normalizePath`: every backslash
becomes a forward slash.  (The JavaScript `x && x` idiom there is the
identity: both operands are the same replaced string.) -/
def backslashToSlash (p : String) : String :=
  String.mk (p.data.map (fun c => if c = '\\' then '/' else c))

/-- `Compiler.normalizePath`: unify separators and prefix `"./"`. -/
def normalizePath (p : String) : String :=
  "./" ++ backslashToSlash p

/-- `Compiler.normalizeModuleName`: append the default `".js"` extension when
`extname` is empty (falsy), join with the parent path, normalize. -/
def normalizeModuleName (moduleName pPath : String) : String :=
  let name := moduleName ++ (if extname moduleName = "" then ".js" else "")
  normalizePath (pathJoin pPath name)

/-- Canonical module id of the file at absolute path `modulePath`:
`normalizePath(path.relative(root, modulePath))`, as computed in
`Compiler.buildModule`. -/
def canonId (root modulePath : String) : String :=
  normalizePath (pathRelative root modulePath)

/-! ## Syntax trees and the `parse` rewrite

Module source text is represented by its syntax tree.  `Expr.call` covers
`CallExpression` nodes (`callee.name` is only defined when the callee is an
identifier, which `Expr.ident` captures); every other node kind is abstracted
by `Expr.other` over its child subtrees, which is all the `CallExpression`
visitor of `parse` can observe. -/

inductive Expr where
  | strLit : String → Expr
  | ident : String → Expr
  | call : Expr → List Expr → Expr
  | other : List Expr → Expr

/-- What the `CallExpression` visitor sees of one call node: a call of the
bare identifier `require` with a string-literal first argument (`good`), a
call of `require` whose `arguments[0].value` is undefined or not a string —
so the subsequent `path.extname` call throws (`bad`) — or a call whose
callee is not the identifier `require`, skipped by the
`node.callee.name === "require"` test (`plain`). -/
inductive CallKind where
  | good : String → CallKind
  | bad : CallKind
  | plain : CallKind

/-- Classify a call node by callee and argument shape (see `CallKind`). -/
def callKind : Expr → List Expr → CallKind
  | .ident "require", .strLit m :: _ => .good m
  | .ident "require", _ => .bad
  | _, _ => .plain

mutual

/-- The traversal of `Compiler.parse` with its `CallExpression` visitor, in
Babel's pre-order: a call whose callee is the identifier `require` has its
callee renamed to `__webpack_require__` and its whole argument list replaced
by the single canonicalised string literal (so subtrees sitting in surplus
arguments are discarded unvisited); the canonical id is appended to the
dependency list.  A `require` call whose first argument is not a string
literal makes `node.arguments[0].value` undefined (or a non-string), so
`path.extname` throws and the whole parse aborts: `none`.  Children of the
replaced node are the fresh literal and identifier, which contain no further
calls, matching Babel's traversal of the mutated node. -/
def rewriteExpr (pd : String) : Expr → Option (Expr × List String)
  | .strLit s => some (.strLit s, [])
  | .ident n => some (.ident n, [])
  | .call c args =>
      match callKind c args with
      | .good m =>
        let id := normalizeModuleName m pd
        some (.call (.ident "__webpack_require__") [.strLit id], [id])
      | .bad => none
      | .plain =>
        match rewriteExpr pd c, rewriteList pd args with
        | some pc, some pa => some (.call pc.1 pa.1, pc.2 ++ pa.2)
        | _, _ => none
  | .other es =>
      match rewriteList pd es with
      | none => none
      | some pe => some (.other pe.1, pe.2)

/-- Pointwise `rewriteExpr` over child lists, left to right, concatenating
dependency lists (pre-order). -/
def rewriteList (pd : String) : List Expr → Option (List Expr × List String)
  | [] => some ([], [])
  | e :: es =>
      match rewriteExpr pd e with
      | none => none
      | some pe =>
        match rewriteList pd es with
        | none => none
        | some ps => some (pe.1 :: ps.1, pe.2 ++ ps.2)

end

mutual

/-- The string literals of the `require` calls that the traversal of
`rewriteExpr` processes (and rewrites), in the same pre-order.  Arguments
beyond the first of a processed `require` call are not scanned, exactly as
the rewrite discards them. -/
def requireLiterals : Expr → List String
  | .strLit _ => []
  | .ident _ => []
  | .call c args =>
      match callKind c args with
      | .good m => [m]
      | .bad => []
      | .plain => requireLiterals c ++ requireLiteralsList args
  | .other es => requireLiteralsList es

/-- `requireLiterals` over child lists. -/
def requireLiteralsList : List Expr → List String
  | [] => []
  | e :: es => requireLiterals e ++ requireLiteralsList es

end

mutual

/-- Does the tree contain, anywhere, a call of the bare identifier `require`
whose first argument is the string literal `m`? -/
def containsRequireLit (m : String) : Expr → Bool
  | .strLit _ => false
  | .ident _ => false
  | .call c args =>
      (match c, args with
       | .ident "require", .strLit m' :: _ => m' = m
       | _, _ => false)
      || containsRequireLit m c || containsRequireListLit m args
  | .other es => containsRequireListLit m es

/-- `containsRequireLit` over child lists. -/
def containsRequireListLit (m : String) : List Expr → Bool
  | [] => false
  | e :: es => containsRequireLit m e || containsRequireListLit m es

end

mutual

/-- Does the tree contain a call `__webpack_require__("id")` — the rewritten
form of a resolved module reference, with its single canonical argument? -/
def hasWreqCall (id : String) : Expr → Bool
  | .strLit _ => false
  | .ident _ => false
  | .call c args =>
      (match c, args with
       | .ident "__webpack_require__", [.strLit m'] => m' = id
       | _, _ => false)
      || hasWreqCall id c || hasWreqCallList id args
  | .other es => hasWreqCallList id es

/-- `hasWreqCall` over child lists. -/
def hasWreqCallList (id : String) : List Expr → Bool
  | [] => false
  | e :: es => hasWreqCall id e || hasWreqCallList id es

end

mutual

/-- Model of `@babel/generator`: a deterministic printer for the embedded
syntax trees.  The compiler only ever passes the printed text onward
verbatim, so only determinism and injectivity-free plumbing matter here. -/
def render : Expr → String
  | .strLit s => "\"" ++ s ++ "\""
  | .ident n => n
  | .call c args => render c ++ "(" ++ renderList args ++ ")"
  | .other es => "[" ++ renderList es ++ "]"

/-- Comma-separated rendering of child lists. -/
def renderList : List Expr → String
  | [] => ""
  | [e] => render e
  | e :: es => render e ++ ", " ++ renderList es

end

/-- `Compiler.parse`: rewrite the tree, then regenerate source text.  Returns
the printed rewritten source and the dependency list. -/
def parseMod (source : Expr) (parentPath : String) : Option (String × List String) :=
  match rewriteExpr parentPath source with
  | none => none
  | some (ast, deps) => some (render ast, deps)

/-! ## `readSource`: the loader-chain fold

A configured rule carries a path predicate (`test.test(path)`) and the chain
of transform functions its `use` array denotes; `require(use[i])` resolving a
loader module to its exported function is external, so the chain is modelled
directly by the functions.  `config.module` is modelled by the rule list it
carries (`Option` for absence). -/

structure Rule where
  test : String → Bool
  use : List (String → String)

/-- The inner `loader()` recursion of `readSource`: apply the chain from its
last entry toward its first, each output feeding the next input. -/
def applyChain (fns : List (String → String)) (content : String) : String :=
  fns.foldr (fun f acc => f acc) content

/-- The rule loop of `readSource`.  A matching rule with an empty `use` array
makes `loader()` call `require(use[-1]) = require(undefined)`, which throws:
`none`. -/
def applyRules (p : String) : List Rule → String → Option String
  | [], content => some content
  | r :: rs, content =>
    if r.test p then
      match r.use with
      | [] => none
      | f :: fns => applyRules p rs (applyChain (f :: fns) content)
    else applyRules p rs content

/-- `Compiler.readSource` after the `fs.readFileSync` (whose result is
`content`): with no `config.module` the content is returned unchanged,
otherwise the rule loop runs. -/
def readSource (moduleCfg : Option (List Rule)) (p : String) (content : String) : Option String :=
  match moduleCfg with
  | none => some content
  | some rules => applyRules p rules content

/-- The specification's description of the loader fold, for comparison: each
matching rule's chain applied last-to-first, rules in declaration order, a
non-matching rule leaving the content untouched.  (Total: an empty chain is
the identity.) -/
def specApplyRules (p : String) (rules : List Rule) (content : String) : String :=
  rules.foldl (fun c r => if r.test p then applyChain r.use c else c) content

/-! ## `buildModule`: the recursive graph builder

The composition `readSource ∘ babylon.parse` that feeds `buildModule` is the
file system of the embedding, `fs : String → Option Expr`: a present,
loader-transformed, parseable file is its syntax tree, and every failure mode
(missing file, crashed loader, parse error) is `none`.  The recursion depth
is bounded by fuel standing for the call stack; `none` with fuel exhausted
corresponds to a recursion that never returns.

`BuildState.modules` is the `this.modules` object: an association list in
insertion order, assignment overwriting in place (JavaScript string-keyed
property order).  `BuildState.built` is ghost history: the JavaScript drops
each `dependencies` list after scheduling the recursion, and this field only
records `(moduleName, dependencies)` as they are processed so invariants can
mention them. -/

structure BuildState where
  modules : List (String × String)
  entryId : Option String
  built : List (String × List String)
deriving DecidableEq

/-- Association-list lookup (JavaScript property read). -/
def lookupAssoc {α : Type} : List (String × α) → String → Option α
  | [], _ => none
  | (k, v) :: rest, key => if k = key then some v else lookupAssoc rest key

/-- Association-list assignment (JavaScript property write: overwrite keeps
the key's position, a fresh key is appended). -/
def setAssoc {α : Type} : List (String × α) → String → α → List (String × α)
  | [], key, v => [(key, v)]
  | (k, w) :: rest, key, v =>
    if k = key then (key, v) :: rest else (k, w) :: setAssoc rest key v

/-- The `dependencies.forEach` loop of `buildModule`, abstracted over the
recursive call: an exception anywhere aborts the whole loop. -/
def buildDeps (bm : String → BuildState → Option BuildState) :
    List String → BuildState → Option BuildState
  | [], st => some st
  | d :: ds, st =>
    match bm d st with
    | none => none
    | some st' => buildDeps bm ds st'

/-- `Compiler.buildModule`: read the source, canonicalise the module name,
record the entry id on the entry call, parse, store the rewritten source in
the graph, then recurse into every dependency (resolved as `root + dep`)
with `isEntry = false`. -/
def buildModule (root : String) (fs : String → Option Expr) :
    Nat → String → Bool → BuildState → Option BuildState
  | 0, _, _, _ => none
  | fuel + 1, modulePath, isEntry, st =>
    match fs modulePath with
    | none => none
    | some source =>
      let moduleName := canonId root modulePath
      let st1 := if isEntry then { st with entryId := some moduleName } else st
      match parseMod source (posixDirname moduleName) with
      | none => none
      | some (sourceCode, dependencies) =>
        let st2 : BuildState :=
          { modules := setAssoc st1.modules moduleName sourceCode
            entryId := st1.entryId
            built := st1.built ++ [(moduleName, dependencies)] }
        buildDeps (fun d s => buildModule root fs fuel (pathJoin root d) false s)
          dependencies st2

/-- The dependency list that `buildModule` extracts for the file at absolute
path `a` holding tree `e` (empty when the parse would abort). -/
def depsAt (root a : String) (e : Expr) : List String :=
  match parseMod e (posixDirname (canonId root a)) with
  | none => []
  | some (_, deps) => deps

/-- The state `Compiler.run` starts from. -/
def initState : BuildState := ⟨[], none, []⟩

/-! ## `emitFile` and `gTemplate`: the emitted bundle text -/

/-- The third factory parameter: `key === this.entryId ? "__webpack_require__"
: ""`.  Comparing a string key against an unset (`undefined`) entry id is
false. -/
def loaderParamFor (key : String) (entryId : Option String) : String :=
  match entryId with
  | some k => if key = k then "__webpack_require__" else ""
  | none => ""

/-- The factory string `gTemplate` pushes for one graph entry (template
literal reproduced byte for byte). -/
def factoryText (key src : String) (entryId : Option String) : String :=
  "\"" ++ key ++ "\": function (module, exports, " ++ loaderParamFor key entryId ++
    ") \x7b\n          eval(`" ++ src ++ "`);\n        \x7d,"

/-- The `arr` that `gTemplate` accumulates: one factory string per graph
entry, in `Object.keys` (insertion) order. -/
def gTemplateArr (modules : List (String × String)) (entryId : Option String) : List String :=
  modules.map (fun kv => factoryText kv.1 kv.2 entryId)

/-- `Compiler.gTemplate`: `arr.join("")`. -/
def gTemplate (modules : List (String × String)) (entryId : Option String) : String :=
  String.join (gTemplateArr modules entryId)

/-- The bundle template of `Compiler.emitFile` (the runtime-loader IIFE),
with the two interpolation holes `entryId` and `modsText`; text reproduced
byte for byte from the template literal. -/
def bundleTemplate (entryId modsText : String) : String :=
  "(function (modules) \x7b\n      var installedModules = \x7b\x7d;\n    \n      function __webpack_require__(moduleId) \x7b\n        if (installedModules[moduleId]) \x7b\n          return installedModules[moduleId].exports;\n        \x7d\n        var module = (installedModules[moduleId] = \x7b\n          i: moduleId,\n          l: false,\n          exports: \x7b\x7d,\n        \x7d);\n    \n        modules[moduleId].call(\n          module.exports,\n          module,\n          module.exports,\n          __webpack_require__\n        );\n    \n        module.l = true;\n    \n        return module.exports;\n      \x7d\n    \n      return __webpack_require__((__webpack_require__.s = \"" ++ entryId ++
    "\"));\n    \x7d)(\x7b\n      " ++ modsText ++ "\n    \x7d);\n    "

/-- Bundle text produced from a finished build state: the entry id is
interpolated (JavaScript renders an unset id as `"undefined"`), and the
module factories come from `gTemplate`. -/
def bundleOf (st : BuildState) : String :=
  bundleTemplate
    (match st.entryId with
     | some e => e
     | none => "undefined")
    (gTemplate st.modules st.entryId)

/-- `Compiler.run` followed by the text production of `emitFile` (the
output-directory file writes are I/O outside the embedding): build from
`path.resolve(root, entry)` with `isEntry = true`, then emit. -/
def runCompiler (root : String) (fs : String → Option Expr) (entry : String)
    (fuel : Nat) : Option String :=
  match buildModule root fs fuel (pathResolve root entry) true initState with
  | none => none
  | some st => some (bundleOf st)

/-! ## The emitted runtime loader

Operational model of the `__webpack_require__` function embedded in the
bundle.  A module factory is abstracted by the ids it requires, in order,
and the exports value its body leaves behind (`mods id = none` models a
missing key, where `modules[moduleId].call` throws).  `WState.installed` is
`installedModules`; `WState.execs` is ghost history listing the ids whose
factory has actually been invoked, in invocation order.  Fuel bounds the
call stack as before. -/

structure WRec (α : Type) where
  l : Bool
  exports : α
deriving DecidableEq

structure WState (α : Type) where
  installed : List (String × WRec α)
  execs : List String
deriving DecidableEq

/-- The successive `__webpack_require__` calls a factory body performs,
abstracted over the loader: any throw propagates. -/
def wreqDeps {α : Type} (wr : String → WState α → Option (WState α)) :
    List String → WState α → Option (WState α)
  | [], st => some st
  | d :: ds, st =>
    match wr d st with
    | none => none
    | some st' => wreqDeps wr ds st'

/-- The emitted `__webpack_require__`: return the cached record's exports if
present; otherwise install a fresh `{i, l: false, exports: {}}` record,
invoke the factory (which requires its dependencies in order and leaves its
exports), set `l = true`, and return the exports. -/
def wreq {α : Type} (mods : String → Option (List String × α)) (empt : α) :
    Nat → String → WState α → Option (WState α × α)
  | 0, _, _ => none
  | fuel + 1, id, st =>
    match lookupAssoc st.installed id with
    | some r => some (st, r.exports)
    | none =>
      let st1 : WState α := ⟨setAssoc st.installed id ⟨false, empt⟩, st.execs⟩
      match mods id with
      | none => none
      | some (deps, res) =>
        let st2 : WState α := ⟨st1.installed, st1.execs ++ [id]⟩
        match wreqDeps
            (fun d s =>
              match wreq mods empt fuel d s with
              | none => none
              | some (s', _) => some s')
            deps st2 with
        | none => none
        | some st3 => some (⟨setAssoc st3.installed id ⟨true, res⟩, st3.execs⟩, res)

/-! ## Association-list lemmas (JavaScript object reads and writes) -/

theorem lookupAssoc_set_self {α : Type} (l : List (String × α)) (k : String) (v : α) :
    lookupAssoc (setAssoc l k v) k = some v := by
  induction l with
  | nil => simp [setAssoc, lookupAssoc]
  | cons kv rest ih =>
    obtain ⟨k', w⟩ := kv
    by_cases h : k' = k
    · subst h; simp [setAssoc, lookupAssoc]
    · simp [setAssoc, lookupAssoc, h, ih]

theorem lookupAssoc_set_isSome_mono {α : Type} (l : List (String × α)) (k j : String) (v : α)
    (h : (lookupAssoc l j).isSome = true) :
    (lookupAssoc (setAssoc l k v) j).isSome = true := by
  induction l with
  | nil => simp [lookupAssoc] at h
  | cons kv rest ih =>
    obtain ⟨k', w⟩ := kv
    by_cases hk : k' = k
    · subst hk
      by_cases hj : k' = j
      · subst hj; simp [setAssoc, lookupAssoc]
      · simp [setAssoc, lookupAssoc, hj] at h ⊢
        exact h
    · by_cases hj : k' = j
      · subst hj; simp [setAssoc, lookupAssoc, hk]
      · simp [setAssoc, lookupAssoc, hk, hj] at h ⊢
        exact ih h

/-! ## Runtime-loader invariants (for C8) -/

/-- Loader-state invariant: the ghost execution trace has no duplicates, and
every executed id has an installed record. -/
def WInv {α : Type} (st : WState α) : Prop :=
  st.execs.Nodup ∧ ∀ j ∈ st.execs, (lookupAssoc st.installed j).isSome = true

theorem wreqDeps_inv {α : Type} (wr : String → WState α → Option (WState α))
    (hwr : ∀ d st st', wr d st = some st' → WInv st →
      WInv st' ∧
        (∀ j, (lookupAssoc st.installed j).isSome = true →
          (lookupAssoc st'.installed j).isSome = true) ∧
        (∀ j ∈ st.execs, j ∈ st'.execs)) :
    ∀ ds st st', wreqDeps wr ds st = some st' → WInv st →
      WInv st' ∧
        (∀ j, (lookupAssoc st.installed j).isSome = true →
          (lookupAssoc st'.installed j).isSome = true) ∧
        (∀ j ∈ st.execs, j ∈ st'.execs) := by
  intro ds
  induction ds with
  | nil =>
    intro st st' h hinv
    simp only [wreqDeps] at h
    cases h
    exact ⟨hinv, fun j hj => hj, fun j hj => hj⟩
  | cons d ds ih =>
    intro st st' h hinv
    simp only [wreqDeps] at h
    cases hwd : wr d st with
    | none => rw [hwd] at h; cases h
    | some st1 =>
      rw [hwd] at h
      obtain ⟨i1, m1, e1⟩ := hwr d st st1 hwd hinv
      obtain ⟨i2, m2, e2⟩ := ih st1 st' h i1
      exact ⟨i2, fun j hj => m2 j (m1 j hj), fun j hj => e2 j (e1 j hj)⟩

theorem wreq_inv {α : Type} (mods : String → Option (List String × α)) (empt : α) :
    ∀ fuel id st st' v, wreq mods empt fuel id st = some (st', v) → WInv st →
      WInv st' ∧
        (∀ j, (lookupAssoc st.installed j).isSome = true →
          (lookupAssoc st'.installed j).isSome = true) ∧
        (∀ j ∈ st.execs, j ∈ st'.execs) := by
  intro fuel
  induction fuel with
  | zero => intro id st st' v h; cases h
  | succ n ih =>
    intro id st st' v h hinv
    simp only [wreq] at h
    split at h
    next r hc =>
      obtain ⟨rfl, rfl⟩ := Prod.mk.inj (Option.some.inj h)
      exact ⟨hinv, fun j hj => hj, fun j hj => hj⟩
    next hc =>
      split at h
      next hm => cases h
      next deps res hm =>
        have hid : id ∉ st.execs := by
          intro hmem
          have := hinv.2 id hmem
          rw [hc] at this
          cases this
        have hinv2 : WInv ⟨setAssoc st.installed id ⟨false, empt⟩, st.execs ++ [id]⟩ := by
          refine ⟨?_, ?_⟩
          · simp [List.nodup_append, hinv.1, hid]
          · intro j hj
            rcases List.mem_append.mp hj with hjo | hjn
            · exact lookupAssoc_set_isSome_mono _ _ _ _ (hinv.2 j hjo)
            · have : j = id := by simpa using hjn
              subst this
              simp [lookupAssoc_set_self]
        split at h
        next hd => cases h
        next st3 hd =>
          have hwr : ∀ d s s',
              (match wreq mods empt n d s with
               | none => none
               | some (s', _) => some s') = some s' → WInv s →
              WInv s' ∧
                (∀ j, (lookupAssoc s.installed j).isSome = true →
                  (lookupAssoc s'.installed j).isSome = true) ∧
                (∀ j ∈ s.execs, j ∈ s'.execs) := by
            intro d s s' hw hinvs
            cases hws : wreq mods empt n d s with
            | none => rw [hws] at hw; cases hw
            | some pr =>
              obtain ⟨s2, v2⟩ := pr
              rw [hws] at hw
              obtain rfl := Option.some.inj hw
              exact ih d s _ v2 hws hinvs
          obtain ⟨i3, m3, e3⟩ := wreqDeps_inv _ hwr deps _ st3 hd hinv2
          obtain ⟨rfl, rfl⟩ := Prod.mk.inj (Option.some.inj h)
          refine ⟨⟨i3.1, ?_⟩, ?_, ?_⟩
          · intro j hj
            exact lookupAssoc_set_isSome_mono _ _ _ _ (i3.2 j hj)
          · intro j hj
            exact lookupAssoc_set_isSome_mono _ _ _ _
              (m3 j (lookupAssoc_set_isSome_mono _ _ _ _ hj))
          · intro j hj
            exact e3 j (List.mem_append.mpr (Or.inl hj))

/-! ## Build lemmas: entry id, graph invariants, totality -/

theorem buildDeps_entryId (bm : String → BuildState → Option BuildState)
    (hbm : ∀ d s s', bm d s = some s' → s'.entryId = s.entryId) :
    ∀ ds st st', buildDeps bm ds st = some st' → st'.entryId = st.entryId := by
  intro ds
  induction ds with
  | nil =>
    intro st st' h
    simp only [buildDeps] at h
    cases h
    rfl
  | cons d ds ih =>
    intro st st' h
    simp only [buildDeps] at h
    split at h
    next => cases h
    next s1 hd => exact (ih s1 st' h).trans (hbm d st s1 hd)

theorem buildModule_entryId (root : String) (fs : String → Option Expr) :
    ∀ fuel a ie st st', buildModule root fs fuel a ie st = some st' →
      st'.entryId = if ie then some (canonId root a) else st.entryId := by
  intro fuel
  induction fuel with
  | zero => intro a ie st st' h; cases h
  | succ n ih =>
    intro a ie st st' h
    simp only [buildModule] at h
    split at h
    next => cases h
    next source hfs =>
      split at h
      next => cases h
      next sc deps hp =>
        have hd := buildDeps_entryId _
          (fun d s s' hh => by
            have := ih (pathJoin root d) false s s' hh
            simpa using this)
          deps _ st' h
        rw [hd]
        cases ie <;> simp

theorem buildDeps_inv (key : String → String) (bm : String → BuildState → Option BuildState)
    (hbm : ∀ d st st', bm d st = some st' →
      (∀ k, (lookupAssoc st.modules k).isSome = true →
        (lookupAssoc st'.modules k).isSome = true) ∧
      (∀ p ∈ st.built, p ∈ st'.built) ∧
      (lookupAssoc st'.modules (key d)).isSome = true ∧
      (∀ p ∈ st'.built, p ∈ st.built ∨
        ∀ x ∈ p.2, (lookupAssoc st'.modules x).isSome = true)) :
    ∀ ds st st', buildDeps bm ds st = some st' →
      (∀ k, (lookupAssoc st.modules k).isSome = true →
        (lookupAssoc st'.modules k).isSome = true) ∧
      (∀ p ∈ st.built, p ∈ st'.built) ∧
      (∀ d ∈ ds, (lookupAssoc st'.modules (key d)).isSome = true) ∧
      (∀ p ∈ st'.built, p ∈ st.built ∨
        ∀ x ∈ p.2, (lookupAssoc st'.modules x).isSome = true) := by
  intro ds
  induction ds with
  | nil =>
    intro st st' h
    simp only [buildDeps] at h
    cases h
    exact ⟨fun k hk => hk, fun p hp => hp, by simp, fun p hp => Or.inl hp⟩
  | cons d ds ih =>
    intro st st' h
    simp only [buildDeps] at h
    split at h
    next => cases h
    next s1 hd =>
      obtain ⟨m1, b1, k1, g1⟩ := hbm d st s1 hd
      obtain ⟨m2, b2, k2, g2⟩ := ih s1 st' h
      refine ⟨fun k hk => m2 k (m1 k hk), fun p hp => b2 p (b1 p hp), ?_, ?_⟩
      · intro x hx
        rcases List.mem_cons.mp hx with rfl | hmem
        · exact m2 _ k1
        · exact k2 x hmem
      · intro p hp
        rcases g2 p hp with hin | hgood
        · rcases g1 p hin with hin0 | hgood0
          · exact Or.inl hin0
          · exact Or.inr (fun x hx => m2 x (hgood0 x hx))
        · exact Or.inr hgood

theorem buildModule_inv (root : String) (fs : String → Option Expr)
    (H : ∀ a e, fs a = some e → ∀ d ∈ depsAt root a e,
      canonId root (pathJoin root d) = d) :
    ∀ fuel a ie st st', buildModule root fs fuel a ie st = some st' →
      (∀ k, (lookupAssoc st.modules k).isSome = true →
        (lookupAssoc st'.modules k).isSome = true) ∧
      (∀ p ∈ st.built, p ∈ st'.built) ∧
      (lookupAssoc st'.modules (canonId root a)).isSome = true ∧
      (∀ p ∈ st'.built, p ∈ st.built ∨
        ∀ x ∈ p.2, (lookupAssoc st'.modules x).isSome = true) := by
  intro fuel
  induction fuel with
  | zero => intro a ie st st' h; cases h
  | succ n ih =>
    intro a ie st st' h
    simp only [buildModule] at h
    split at h
    next => cases h
    next source hfs =>
      split at h
      next => cases h
      next sc deps hp =>
        have hmods1 : (if ie then { st with entryId := some (canonId root a) } else st).modules
            = st.modules := by cases ie <;> rfl
        have hbuilt1 : (if ie then { st with entryId := some (canonId root a) } else st).built
            = st.built := by cases ie <;> rfl
        have hdeps : deps = depsAt root a source := by
          simp [depsAt, hp]
        rw [hmods1, hbuilt1] at h
        obtain ⟨m2, b2, k2, g2⟩ :=
          buildDeps_inv (fun d => canonId root (pathJoin root d)) _
            (fun d s s' hh => ih (pathJoin root d) false s s' hh) deps _ st' h
        refine ⟨?_, ?_, ?_, ?_⟩
        · intro k hk
          exact m2 k (lookupAssoc_set_isSome_mono _ _ _ _ hk)
        · intro p hp
          exact b2 p (List.mem_append.mpr (Or.inl hp))
        · exact m2 _ (by simp [lookupAssoc_set_self])
        · intro p hp
          rcases g2 p hp with hin | hgood
          · rcases List.mem_append.mp hin with hold | hnew
            · exact Or.inl hold
            · refine Or.inr ?_
              have hpnew : p = (canonId root a, deps) := by simpa using hnew
              subst hpnew
              intro x hx
              have hx' : x ∈ depsAt root a source := hdeps ▸ hx
              have := k2 x hx
              rwa [H a source hfs x hx'] at this
          · exact Or.inr hgood

theorem buildDeps_isSome (bm : String → BuildState → Option BuildState) :
    ∀ ds st, (∀ d ∈ ds, ∀ s, (bm d s).isSome = true) →
      (buildDeps bm ds st).isSome = true := by
  intro ds
  induction ds with
  | nil => intro st h; simp [buildDeps]
  | cons d ds ih =>
    intro st h
    simp only [buildDeps]
    cases hd : bm d st with
    | none =>
      have := h d (List.mem_cons_self d ds) st
      rw [hd] at this
      cases this
    | some s1 => exact ih s1 (fun x hx s => h x (List.mem_cons_of_mem d hx) s)

theorem buildModule_total (root : String) (fs : String → Option Expr) (rank : String → Nat)
    (H1 : ∀ a e, fs a = some e →
      (parseMod e (posixDirname (canonId root a))).isSome = true)
    (H2 : ∀ a e, fs a = some e → ∀ d ∈ depsAt root a e,
      (fs (pathJoin root d)).isSome = true ∧ rank (pathJoin root d) < rank a) :
    ∀ n a ie st, rank a < n → (fs a).isSome = true →
      (buildModule root fs n a ie st).isSome = true := by
  intro n
  induction n with
  | zero => intro a ie st hr; exact absurd hr (Nat.not_lt_zero _)
  | succ m ih =>
    intro a ie st hr hfs
    obtain ⟨e, he⟩ := Option.isSome_iff_exists.mp hfs
    obtain ⟨pr, hp⟩ := Option.isSome_iff_exists.mp (H1 a e he)
    obtain ⟨sc, deps⟩ := pr
    have hdeps : deps = depsAt root a e := by simp [depsAt, hp]
    simp only [buildModule, he, hp]
    refine buildDeps_isSome _ deps _ ?_
    intro d hd s
    have hmem : d ∈ depsAt root a e := hdeps ▸ hd
    obtain ⟨hfs', hlt⟩ := H2 a e he d hmem
    exact ih (pathJoin root d) false s
      (Nat.lt_of_lt_of_le hlt (Nat.lt_succ_iff.mp hr)) hfs'

/-! ## The rewrite master lemma: dependency lists follow the traversal -/

theorem rewrite_master (pd : String) :
    ∀ e : Expr, ∀ e' deps, rewriteExpr pd e = some (e', deps) →
      deps = (requireLiterals e).map (fun m => normalizeModuleName m pd) ∧
      ∀ m ∈ requireLiterals e, hasWreqCall (normalizeModuleName m pd) e' = true := by
  refine rewriteExpr.induct pd
    (fun e => ∀ e' deps, rewriteExpr pd e = some (e', deps) →
      deps = (requireLiterals e).map (fun m => normalizeModuleName m pd) ∧
      ∀ m ∈ requireLiterals e, hasWreqCall (normalizeModuleName m pd) e' = true)
    (fun es => ∀ es' deps, rewriteList pd es = some (es', deps) →
      deps = (requireLiteralsList es).map (fun m => normalizeModuleName m pd) ∧
      ∀ m ∈ requireLiteralsList es,
        hasWreqCallList (normalizeModuleName m pd) es' = true)
    ?_ ?_ ?_ ?_ ?_ ?_ ?_ ?_ ?_ ?_ ?_ ?_
  · intro s e' deps h
    simp only [rewriteExpr] at h
    obtain ⟨h1, h2⟩ := Prod.mk.inj (Option.some.inj h)
    subst h1; subst h2
    simp [requireLiterals]
  · intro n e' deps h
    simp only [rewriteExpr] at h
    obtain ⟨h1, h2⟩ := Prod.mk.inj (Option.some.inj h)
    subst h1; subst h2
    simp [requireLiterals]
  · intro c args m hk e' deps h
    simp only [rewriteExpr, hk] at h
    obtain ⟨h1, h2⟩ := Prod.mk.inj (Option.some.inj h)
    subst h1; subst h2
    simp only [requireLiterals, hk]
    constructor
    · simp
    · intro m' hm'
      have : m' = m := by simpa using hm'
      subst this
      simp [hasWreqCall, hasWreqCallList]
  · intro c args hk e' deps h
    simp only [rewriteExpr, hk] at h
    exact Option.noConfusion h
  · intro c args hk pc pa hl hc ih1 ih2 e' deps h
    obtain ⟨pc1, pc2⟩ := pc
    obtain ⟨pa1, pa2⟩ := pa
    simp only [rewriteExpr, hk, hc, hl] at h
    obtain ⟨h1, h2⟩ := Prod.mk.inj (Option.some.inj h)
    subst h1; subst h2
    obtain ⟨d1, w1⟩ := ih1 pc1 pc2 hc
    obtain ⟨d2, w2⟩ := ih2 pa1 pa2 hl
    simp only [requireLiterals, hk]
    constructor
    · rw [List.map_append, ← d1, ← d2]
    · intro m hm
      rcases List.mem_append.mp hm with hml | hmr
      · simp [hasWreqCall, w1 m hml]
      · simp [hasWreqCall, w2 m hmr]
  · intro c args hk hfail ih1 ih2 e' deps h
    simp only [rewriteExpr, hk] at h
    exact Option.noConfusion h
  · intro es he ih2 e' deps h
    simp only [rewriteExpr, he] at h
    exact Option.noConfusion h
  · intro es pe he ih2 e' deps h
    obtain ⟨pe1, pe2⟩ := pe
    simp only [rewriteExpr, he] at h
    obtain ⟨h1, h2⟩ := Prod.mk.inj (Option.some.inj h)
    subst h1; subst h2
    obtain ⟨d1, w1⟩ := ih2 pe1 pe2 he
    simp only [requireLiterals]
    refine ⟨d1, ?_⟩
    intro m hm
    simp [hasWreqCall, w1 m hm]
  · intro es' deps h
    simp only [rewriteList] at h
    obtain ⟨h1, h2⟩ := Prod.mk.inj (Option.some.inj h)
    subst h1; subst h2
    simp [requireLiteralsList]
  · intro e es he ih1 es' deps h
    simp only [rewriteList, he] at h
    exact Option.noConfusion h
  · intro e es pe hpe hps ih1 ih2 es' deps h
    simp only [rewriteList, hpe, hps] at h
    exact Option.noConfusion h
  · intro e es pe hpe ps hps ih1 ih2 es' deps h
    obtain ⟨pe1, pe2⟩ := pe
    obtain ⟨ps1, ps2⟩ := ps
    simp only [rewriteList, hpe, hps] at h
    obtain ⟨h1, h2⟩ := Prod.mk.inj (Option.some.inj h)
    subst h1; subst h2
    obtain ⟨d1, w1⟩ := ih1 pe1 pe2 hpe
    obtain ⟨d2, w2⟩ := ih2 ps1 ps2 hps
    simp only [requireLiteralsList]
    constructor
    · rw [List.map_append, ← d1, ← d2]
    · intro m hm
      rcases List.mem_append.mp hm with hml | hmr
      · simp [hasWreqCallList, w1 m hml]
      · simp [hasWreqCallList, w2 m hmr]

/-! ## Concrete fixtures used by witnesses and counterexamples -/

/-- The call `require("a", require("b"))`: a `require` call nested inside a
surplus argument of an enclosing `require` call. -/
def exNested : Expr :=
  .call (.ident "require") [.strLit "a", .call (.ident "require") [.strLit "b"]]

/-- A module that requires `"../../x"` (climbs two directories up). -/
def astEscape : Expr := .other [.call (.ident "require") [.strLit "../../x"]]

/-- A module with no `require` calls. -/
def astLeaf : Expr := .other []

/-- A module that requires `"./a"`. -/
def astReqA : Expr := .other [.call (.ident "require") [.strLit "./a"]]

/-- A module that requires `"./b"`. -/
def astReqB : Expr := .other [.call (.ident "require") [.strLit "./b"]]

/-- File system rooted at `/r` whose entry climbs above the file-system root:
`/r/index.js` requires `"../../x"`, and `/x.js` exists. -/
def fsEscape : String → Option Expr := fun p =>
  if p = "/r/index.js" then some astEscape
  else if p = "/x.js" then some astLeaf
  else none

/-- Cyclic file system: `/r/a.js` requires `"./b"` and `/r/b.js` requires
`"./a"`. -/
def fsCyc : String → Option Expr := fun p =>
  if p = "/r/a.js" then some astReqB
  else if p = "/r/b.js" then some astReqA
  else none

/-- Acyclic file system: `/r/index.js` requires `"./a"`; `/r/a.js` is a leaf. -/
def fsAcy : String → Option Expr := fun p =>
  if p = "/r/index.js" then some astReqA
  else if p = "/r/a.js" then some astLeaf
  else none

/-- A rank function decreasing along every `fsAcy` reference (acyclicity). -/
def rankAcy : String → Nat := fun p => if p = "/r/index.js" then 1 else 0

/-- The final state of the successful two-module `fsAcy` build. -/
def stAcy : BuildState :=
  ⟨[("./index.js", "[__webpack_require__(\"./a.js\")]"), ("./a.js", "[]")],
    some "./index.js",
    [("./index.js", ["./a.js"]), ("./a.js", [])]⟩

/-- The final state of the successful root-escaping `fsEscape` build. -/
def stEsc : BuildState :=
  ⟨[("./index.js", "[__webpack_require__(\"./../../x.js\")]"), ("./../x.js", "[]")],
    some "./index.js",
    [("./index.js", ["./../../x.js"]), ("./../x.js", [])]⟩

/-- Loader factories where the entry requires `"./a.js"` twice. -/
def modsOnce : String → Option (List String × Nat) := fun id =>
  if id = "./e.js" then some (["./a.js", "./a.js"], 2)
  else if id = "./a.js" then some ([], 1)
  else none

/-- The final loader state of running `modsOnce` from `"./e.js"`. -/
def stOnce : WState Nat :=
  ⟨[("./e.js", ⟨true, 2⟩), ("./a.js", ⟨true, 1⟩)], ["./e.js", "./a.js"]⟩

/-- A module requiring `"a"`, then (nested one level down) `"b"`, then `"a"`
again. -/
def eDup : Expr :=
  .other [.call (.ident "require") [.strLit "a"],
    .other [.call (.ident "require") [.strLit "b"]],
    .call (.ident "require") [.strLit "a"]]

/-- A rule that matches every path and has an empty transform chain. -/
def ruleEmpty : Rule := ⟨fun _ => true, []⟩

/-- A rule matching `"a.js"` whose chain appends `"1"` after appending `"2"`. -/
def ruleAppend : Rule := ⟨fun p => p == "a.js", [fun c => c ++ "1", fun c => c ++ "2"]⟩

/-- A two-entry module graph for the factory-template fixture. -/
def modsC7 : List (String × String) := [("./index.js", "s1"), ("./a.js", "s2")]

/-! ## Remaining helper lemmas -/

/-- The concrete cyclic input `fsCyc` exhausts every amount of fuel: the
mutual recursion between `/r/a.js` and `/r/b.js` never returns. -/
theorem fsCyc_none : ∀ fuel,
    (∀ ie st, buildModule "/r" fsCyc fuel "/r/a.js" ie st = none) ∧
    (∀ ie st, buildModule "/r" fsCyc fuel "/r/b.js" ie st = none) := by
  intro fuel
  induction fuel with
  | zero => exact ⟨fun _ _ => rfl, fun _ _ => rfl⟩
  | succ n ih =>
    constructor
    · intro ie st
      obtain ⟨s2, e1⟩ : ∃ s2, buildModule "/r" fsCyc (n + 1) "/r/a.js" ie st =
          (match buildModule "/r" fsCyc n "/r/b.js" false s2 with
           | none => none
           | some st1 => some st1) := by
        cases ie
        · exact ⟨_, rfl⟩
        · exact ⟨_, rfl⟩
      rw [e1, (ih.2) false s2]
    · intro ie st
      obtain ⟨s2, e1⟩ : ∃ s2, buildModule "/r" fsCyc (n + 1) "/r/b.js" ie st =
          (match buildModule "/r" fsCyc n "/r/a.js" false s2 with
           | none => none
           | some st1 => some st1) := by
        cases ie
        · exact ⟨_, rfl⟩
        · exact ⟨_, rfl⟩
      rw [e1, (ih.1) false s2]

/-- Mapping a list can only merge occurrences, never lose them. -/
theorem count_le_count_map (f : String → String) (l : List String) (a : String) :
    l.count a ≤ (l.map f).count (f a) := by
  induction l with
  | nil => simp
  | cons b l ih =>
    simp only [List.map_cons, List.count_cons]
    by_cases hab : a = b
    · subst hab
      simp only [beq_self_eq_true, if_true]
      omega
    · have hba : (b == a) = false := beq_eq_false_iff_ne.mpr (fun h => hab h.symm)
      simp only [hba, Bool.false_eq_true, if_false]
      split <;> omega

/-- With pairwise-distinct keys, filtering an association list for the key of
one of its entries yields exactly that entry. -/
theorem filter_key_eq {α : Type} : ∀ (l : List (String × α)) (key : String) (src : α),
    (l.map Prod.fst).Nodup → (key, src) ∈ l →
    l.filter (fun kv => kv.1 == key) = [(key, src)] := by
  intro l
  induction l with
  | nil => intro key src _ hm; cases hm
  | cons kv rest ih =>
    intro key src hnd hm
    obtain ⟨k, w⟩ := kv
    simp only [List.map_cons, List.nodup_cons] at hnd
    rcases List.mem_cons.mp hm with heq | hmem
    · cases heq
      have hrest : rest.filter (fun kv => kv.1 == key) = [] := by
        rw [List.filter_eq_nil_iff]
        intro kv hkv
        simp only [beq_iff_eq]
        intro hk
        exact hnd.1 (List.mem_map.mpr ⟨kv, hkv, hk⟩)
      simp [List.filter_cons, hrest]
    · have hkid : ¬ k = key := by
        intro hkid
        exact hnd.1 (hkid ▸ List.mem_map.mpr ⟨(key, src), hmem, rfl⟩)
      have hf : ((k, w).1 == key) = false := by
        simp only [beq_eq_false_iff_ne, ne_eq]
        exact hkid
      simp only [List.filter_cons, hf, Bool.false_eq_true, if_false]
      exact ih key src hnd.2 hmem


/-- The loader-rule loop of `readSource` agrees with the specification's fold
whenever every matching rule has a nonempty chain. -/
theorem applyRules_spec (p : String) : ∀ (rules : List Rule) (content : String),
    (∀ r ∈ rules, r.test p = true → r.use ≠ []) →
    applyRules p rules content = some (specApplyRules p rules content) := by
  intro rules
  induction rules with
  | nil => intro content _; rfl
  | cons r rs ih =>
    intro content h
    simp only [applyRules, specApplyRules, List.foldl_cons]
    by_cases ht : r.test p = true
    · simp only [ht, if_true]
      cases hu : r.use with
      | nil => exact absurd hu (h r (List.mem_cons_self r rs) ht)
      | cons f fns =>
        exact ih (applyChain (f :: fns) content)
          (fun r' hr' ht' => h r' (List.mem_cons_of_mem r hr') ht')
    · rw [if_neg ht, if_neg ht]
      exact ih content (fun r' hr' ht' => h r' (List.mem_cons_of_mem r hr') ht')

/-! ## The claims -/

/-- C1, counterexample: the module `require("a", require("b"))` at parent
directory `"."` contains the call `require("b")` with a string-literal
argument and its parse succeeds, yet the rewritten tree holds no loader call
for the canonical id `"./b.js" = normalizeModuleName "b" "."` and that id is
missing from the returned dependency list: replacing the outer call's
argument list deletes the nested call before the traversal visits it. -/
theorem parse_rewrite_counterexample :
    containsRequireLit "b" exNested = true ∧
    normalizeModuleName "b" "." = "./b.js" ∧
    (rewriteExpr "." exNested).map (fun r => (r.2, hasWreqCall "./b.js" r.1)) =
      some (["./a.js"], false) ∧
    "./b.js" ∉ (["./a.js"] : List String) :=
  ⟨by decide, by decide, by decide, by decide⟩

/-- C1 (amended): for every module whose parse succeeds, every `require` call
with a string-literal argument `X` that the rewrite traversal processes
(equivalently: that is not nested inside the replaced argument list of an
enclosing `require` call) is rewritten into a call of the internal loader
identifier carrying the canonical id `normalizeModuleName X pd` — default
extension appended when `X` has none, joined with the module's directory,
separators normalized to forward slashes, prefixed `"./"` — and that exact
canonical id appears in the dependency list `parse` returns. -/
theorem parse_rewrites_processed_require (pd : String) (source ast' : Expr)
    (deps : List String) (X : String)
    (hr : rewriteExpr pd source = some (ast', deps))
    (hX : X ∈ requireLiterals source) :
    normalizeModuleName X pd ∈ deps ∧
    hasWreqCall (normalizeModuleName X pd) ast' = true ∧
    parseMod source pd = some (render ast', deps) := by
  obtain ⟨hd, hw⟩ := rewrite_master pd source ast' deps hr
  refine ⟨?_, hw X hX, ?_⟩
  · rw [hd]
    exact List.mem_map_of_mem _ hX
  · simp [parseMod, hr]

/-- C1 witness: the processed call `require("./a")` in `astReqA` is rewritten
to `__webpack_require__("./a.js")` and `"./a.js"` is recorded. -/
theorem parse_rewrites_processed_require_witness :
    "./a.js" ∈ (["./a.js"] : List String) ∧
    hasWreqCall "./a.js"
      (Expr.other [.call (.ident "__webpack_require__") [.strLit "./a.js"]]) = true ∧
    parseMod astReqA "." = some ("[__webpack_require__(\"./a.js\")]", ["./a.js"]) :=
  parse_rewrites_processed_require "." astReqA
    (.other [.call (.ident "__webpack_require__") [.strLit "./a.js"]])
    ["./a.js"] "./a" rfl (by decide)

/-- C2, counterexample: with root `/r`, the entry `/r/index.js` requires
`"../../x"`, whose two `..` segments climb above the file-system root; the
build completes, the recorded dependency id is `"./../../x.js"`, but the
module actually built for it is keyed `"./../x.js"` (`path.join` clamps at
`/`), so the dependency id is not a key of the final graph. -/
theorem build_deps_escape_counterexample :
    buildModule "/r" fsEscape 3 "/r/index.js" true initState = some stEsc ∧
    ("./index.js", ["./../../x.js"]) ∈ stEsc.built ∧
    lookupAssoc stEsc.modules "./../../x.js" = none :=
  ⟨by decide, by decide, by decide⟩

/-- C2 (amended): for every input on which the build completes successfully
and in which every dependency id of every readable file re-resolves to itself
against the root (`normalizePath (relative root (join root d)) = d`, which
holds whenever the root is absolute and no dependency's leading `..` segments
climb above the file-system root), every id appearing in the dependency list
of any built module is a key of the final module graph. -/
theorem build_deps_are_graph_keys (root : String) (fs : String → Option Expr)
    (H : ∀ a e, fs a = some e → ∀ d ∈ depsAt root a e,
      canonId root (pathJoin root d) = d)
    (fuel : Nat) (a : String) (ie : Bool) (st' : BuildState)
    (h : buildModule root fs fuel a ie initState = some st') :
    ∀ p ∈ st'.built, ∀ d ∈ p.2, (lookupAssoc st'.modules d).isSome = true := by
  intro p hp d hd
  rcases (buildModule_inv root fs H fuel a ie initState st' h).2.2.2 p hp with hin | hgood
  · simp [initState] at hin
  · exact hgood d hd

/-- C2 witness: in the two-module acyclic build the dependency `"./a.js"`
recorded for the entry is a key of the final graph. -/
theorem build_deps_are_graph_keys_witness :
    (lookupAssoc stAcy.modules "./a.js").isSome = true := by
  have H : ∀ a e, fsAcy a = some e → ∀ d ∈ depsAt "/r" a e,
      canonId "/r" (pathJoin "/r" d) = d := by
    intro a e he
    simp only [fsAcy] at he
    split at he
    next ha =>
      cases he
      subst ha
      decide
    next ha =>
      split at he
      next hb =>
        cases he
        subst hb
        decide
      next hb => cases he
  exact build_deps_are_graph_keys "/r" fsAcy H 2 "/r/index.js" true stAcy (by decide)
    ("./index.js", ["./a.js"]) (by decide) "./a.js" (by decide)

/-- C3: when every reachable file exists and parses (`H1`), and a rank
function decreases across every module reference (`H2` — the fuel-model
rendering of an acyclic reference relation), the recursive build from the
entry returns within stack depth `rank entry + 1`; and on the concrete
circular input (`/r/a.js` requires `./b`, `/r/b.js` requires `./a`) no
amount of stack ever suffices — the recursion never returns, there being no
cycle guard or deduplication. -/
theorem build_termination (root entryAbs : String) (fs : String → Option Expr)
    (rank : String → Nat)
    (H1 : ∀ a e, fs a = some e →
      (parseMod e (posixDirname (canonId root a))).isSome = true)
    (H2 : ∀ a e, fs a = some e → ∀ d ∈ depsAt root a e,
      (fs (pathJoin root d)).isSome = true ∧ rank (pathJoin root d) < rank a)
    (H0 : (fs entryAbs).isSome = true) :
    (buildModule root fs (rank entryAbs + 1) entryAbs true initState).isSome = true ∧
    (∀ fuel ie st, buildModule "/r" fsCyc fuel "/r/a.js" ie st = none) :=
  ⟨buildModule_total root fs rank H1 H2 (rank entryAbs + 1) entryAbs true initState
      (Nat.lt_succ_self _) H0,
    fun fuel ie st => (fsCyc_none fuel).1 ie st⟩

/-- C3 witness: the acyclic two-module input builds with fuel
`rankAcy "/r/index.js" + 1`, and the circular input returns nothing at stack
depth 9 (or any other). -/
theorem build_termination_witness :
    (buildModule "/r" fsAcy (rankAcy "/r/index.js" + 1) "/r/index.js" true
      initState).isSome = true ∧
    buildModule "/r" fsCyc 9 "/r/a.js" true initState = none := by
  have H1 : ∀ a e, fsAcy a = some e →
      (parseMod e (posixDirname (canonId "/r" a))).isSome = true := by
    intro a e he
    simp only [fsAcy] at he
    split at he
    next ha =>
      cases he
      subst ha
      decide
    next ha =>
      split at he
      next hb =>
        cases he
        subst hb
        decide
      next hb => cases he
  have H2 : ∀ a e, fsAcy a = some e → ∀ d ∈ depsAt "/r" a e,
      (fsAcy (pathJoin "/r" d)).isSome = true ∧
        rankAcy (pathJoin "/r" d) < rankAcy a := by
    intro a e he
    simp only [fsAcy] at he
    split at he
    next ha =>
      cases he
      subst ha
      decide
    next ha =>
      split at he
      next hb =>
        cases he
        subst hb
        decide
      next hb => cases he
  have h := build_termination "/r" "/r/index.js" fsAcy rankAcy H1 H2 (by decide)
  exact ⟨h.1, h.2 9 true initState⟩

/-- C4: whenever the build that `run` starts (from
`path.resolve(root, entry)` with `isEntry = true`) completes, the recorded
entry id is the canonical id of the configured entry file, the emitted bundle
interpolates exactly that id as the bootstrap argument of the runtime loader,
and every recursive dependency build — all of which pass `isEntry = false` —
leaves the entry id untouched, so it is set exactly once. -/
theorem bootstrap_id_embedded (root entry : String) (fs : String → Option Expr)
    (fuel : Nat) (st : BuildState)
    (h : buildModule root fs fuel (pathResolve root entry) true initState = some st) :
    st.entryId = some (canonId root (pathResolve root entry)) ∧
    runCompiler root fs entry fuel =
      some (bundleTemplate (canonId root (pathResolve root entry))
        (gTemplate st.modules st.entryId)) ∧
    (∀ fuel' a st0 st1, buildModule root fs fuel' a false st0 = some st1 →
      st1.entryId = st0.entryId) := by
  have he := buildModule_entryId root fs fuel (pathResolve root entry) true initState st h
  simp only [if_true] at he
  refine ⟨he, ?_, ?_⟩
  · simp only [runCompiler, h, bundleOf, he]
  · intro fuel' a st0 st1 hb
    have h2 := buildModule_entryId root fs fuel' a false st0 st1 hb
    simpa using h2

/-- C4 witness: the acyclic build records `"./index.js"` as the entry id and
embeds it in the emitted bundle. -/
theorem bootstrap_id_embedded_witness :
    stAcy.entryId = some "./index.js" ∧
    runCompiler "/r" fsAcy "./index.js" 2 =
      some (bundleTemplate "./index.js" (gTemplate stAcy.modules stAcy.entryId)) := by
  have h := bootstrap_id_embedded "/r" "./index.js" fsAcy 2 stAcy (by decide)
  exact ⟨h.1, h.2.1⟩

/-- C5, counterexample: a matching rule with an empty transform chain makes
`readSource` call `require(use[-1]) = require(undefined)`, which throws —
the content is not returned unchanged as the unrestricted claim demands. -/
theorem readSource_empty_chain_counterexample :
    readSource (some [ruleEmpty]) "a.js" "x" = none ∧
    specApplyRules "a.js" [ruleEmpty] "x" = "x" :=
  ⟨rfl, rfl⟩

/-- C5 (amended): for every path and every rule set in which each matching
rule carries a nonempty chain, `readSource` applies the chain of each rule
whose pattern matches the path from the last entry toward the first, feeding
each function's output into the next, with matching rules in declaration
order; with no matching rule, or no rule set configured, the original content
is returned unchanged. -/
theorem readSource_applies_matching_chains (rules : List Rule) (p content : String)
    (h : ∀ r ∈ rules, r.test p = true → r.use ≠ []) :
    readSource (some rules) p content = some (specApplyRules p rules content) ∧
    readSource none p content = some content := by
  refine ⟨?_, rfl⟩
  simp only [readSource]
  exact applyRules_spec p rules content h

/-- C5 witness: the chain `[· ++ "1", · ++ "2"]` maps `"x"` to `"x21"` —
the last entry of the chain runs first. -/
theorem readSource_applies_matching_chains_witness :
    readSource (some [ruleAppend]) "a.js" "x" =
      some (specApplyRules "a.js" [ruleAppend] "x") ∧
    specApplyRules "a.js" [ruleAppend] "x" = "x21" := by
  refine ⟨?_, rfl⟩
  have h := readSource_applies_matching_chains [ruleAppend] "a.js" "x" ?_
  · exact h.1
  · intro r hr ht
    rcases List.mem_singleton.mp hr with rfl
    simp [ruleAppend]

/-- C6: the dependency list `parse` returns is exactly the pre-order list of
the processed `require` literals, each canonicalised — so ids appear in
syntax-tree traversal order, and a target required several times appears once
per occurrence (mapping canonicalisation never loses occurrences). -/
theorem parse_deps_traversal_order (pd : String) (e : Expr) (src : String)
    (deps : List String) (h : parseMod e pd = some (src, deps)) :
    deps = (requireLiterals e).map (fun m => normalizeModuleName m pd) ∧
    ∀ m, (requireLiterals e).count m ≤ deps.count (normalizeModuleName m pd) := by
  simp only [parseMod] at h
  split at h
  next => cases h
  next ast deps0 hr =>
    obtain ⟨h1, h2⟩ := Prod.mk.inj (Option.some.inj h)
    subst h1
    subst h2
    obtain ⟨hd, _⟩ := rewrite_master pd e ast deps0 hr
    refine ⟨hd, ?_⟩
    intro m
    rw [hd]
    exact count_le_count_map (fun m => normalizeModuleName m pd) (requireLiterals e) m

/-- C6 witness: `eDup` requires `"a"`, then `"b"` one level deeper, then
`"a"` again, and the dependency list is `["./a.js", "./b.js", "./a.js"]` —
traversal order with the duplicate preserved. -/
theorem parse_deps_traversal_order_witness :
    (["./a.js", "./b.js", "./a.js"] : List String) =
      (requireLiterals eDup).map (fun m => normalizeModuleName m ".") ∧
    (requireLiterals eDup).count "a" ≤
      (["./a.js", "./b.js", "./a.js"] : List String).count
        (normalizeModuleName "a" ".") := by
  have h := parse_deps_traversal_order "." eDup
    "[__webpack_require__(\"./a.js\"), [__webpack_require__(\"./b.js\")], __webpack_require__(\"./a.js\")]"
    ["./a.js", "./b.js", "./a.js"] rfl
  exact ⟨h.1, h.2 "a"⟩

/-- C7: with the graph's keys pairwise distinct, every `(key, source)` pair
yields exactly one factory in `gTemplate`'s array (one per pair, in key
order), and the third factory parameter is the loader name
`__webpack_require__` precisely when the key is the entry id and the empty
binding otherwise — two observably different parameter lists. -/
theorem gTemplate_factory_per_entry (modules : List (String × String))
    (entryId : Option String) (key src : String)
    (hnd : (modules.map Prod.fst).Nodup) (hm : (key, src) ∈ modules) :
    modules.filter (fun kv => kv.1 == key) = [(key, src)] ∧
    gTemplateArr modules entryId =
      modules.map (fun kv => factoryText kv.1 kv.2 entryId) ∧
    loaderParamFor key entryId =
      (if entryId = some key then "__webpack_require__" else "") ∧
    ("__webpack_require__" : String) ≠ "" := by
  refine ⟨filter_key_eq modules key src hnd hm, rfl, ?_, by decide⟩
  cases entryId with
  | none => simp [loaderParamFor]
  | some k =>
    by_cases hk : key = k
    · subst hk
      simp [loaderParamFor]
    · rw [if_neg (fun hemb => hk (Option.some.inj hemb).symm)]
      simp [loaderParamFor, hk]

/-- C7 witness: in the two-entry graph with entry `"./index.js"`, the key
`"./a.js"` has exactly one factory and its loader parameter is omitted. -/
theorem gTemplate_factory_per_entry_witness :
    modsC7.filter (fun kv => kv.1 == "./a.js") = [("./a.js", "s2")] ∧
    gTemplateArr modsC7 (some "./index.js") =
      modsC7.map (fun kv => factoryText kv.1 kv.2 (some "./index.js")) ∧
    loaderParamFor "./a.js" (some "./index.js") =
      (if (some "./index.js" : Option String) = some "./a.js"
        then "__webpack_require__" else "") ∧
    ("__webpack_require__" : String) ≠ "" :=
  gTemplate_factory_per_entry modsC7 (some "./index.js") "./a.js" "s2"
    (by decide) (by decide)

/-- C8: the emitted runtime loader returns the cached exports unchanged when
the id is already installed; from a fresh bundle evaluation the ghost trace
of factory invocations has no duplicates (each factory runs at most once per
id); and a fresh instantiation runs the factory, caches the record marked
loaded, and returns its exports. -/
theorem loader_at_most_once {α : Type} (mods : String → Option (List String × α))
    (empt : α) :
    (∀ fuel id st r, lookupAssoc st.installed id = some r →
      wreq mods empt (fuel + 1) id st = some (st, r.exports)) ∧
    (∀ fuel id st' v, wreq mods empt fuel id ⟨[], []⟩ = some (st', v) →
      st'.execs.Nodup) ∧
    (∀ fuel id st st' v deps res, lookupAssoc st.installed id = none →
      mods id = some (deps, res) →
      wreq mods empt (fuel + 1) id st = some (st', v) →
      v = res ∧ lookupAssoc st'.installed id = some ⟨true, res⟩) := by
  refine ⟨?_, ?_, ?_⟩
  · intro fuel id st r hc
    simp [wreq, hc]
  · intro fuel id st' v h
    exact ((wreq_inv mods empt fuel id ⟨[], []⟩ st' v h ⟨List.nodup_nil, by simp⟩).1).1
  · intro fuel id st st' v deps res hc hm h
    simp only [wreq, hc, hm] at h
    split at h
    next => cases h
    next st3 hd =>
      obtain ⟨h1, h2⟩ := Prod.mk.inj (Option.some.inj h)
      subst h1
      subst h2
      exact ⟨rfl, lookupAssoc_set_self _ _ _⟩

/-- C8 witness: the entry factory requires `"./a.js"` twice, yet the trace is
`["./e.js", "./a.js"]` with no duplicate; a cached id returns its exports
with the state unchanged; the fresh entry ends cached, loaded, with its
exports. -/
theorem loader_at_most_once_witness :
    wreq modsOnce 0 1 "./a.js" stOnce = some (stOnce, 1) ∧
    stOnce.execs.Nodup ∧
    lookupAssoc stOnce.installed "./e.js" = some ⟨true, 2⟩ := by
  have h := loader_at_most_once modsOnce (0 : Nat)
  have hrun : wreq modsOnce 0 3 "./e.js" ⟨[], []⟩ = some (stOnce, 2) := by decide
  exact ⟨h.1 0 "./a.js" stOnce ⟨true, 1⟩ (by decide),
    h.2.1 3 "./e.js" stOnce 2 hrun,
    (h.2.2 2 "./e.js" ⟨[], []⟩ stOnce 2 ["./a.js", "./a.js"] 2
      (by decide) (by decide) hrun).2⟩

/-- C9: the whole pipeline — build from the resolved entry, then emit the
bundle text — is a pure function of the root, the entry, the file contents,
and the stack budget: equal inputs give byte-identical bundles; the module
object iterates in insertion order and nothing depends on time or
randomness. -/
theorem run_deterministic (root1 root2 entry1 entry2 : String)
    (fs1 fs2 : String → Option Expr) (fuel1 fuel2 : Nat)
    (hr : root1 = root2) (he : entry1 = entry2) (hf : fs1 = fs2)
    (hn : fuel1 = fuel2) :
    runCompiler root1 fs1 entry1 fuel1 = runCompiler root2 fs2 entry2 fuel2 := by
  subst hr
  subst he
  subst hf
  subst hn
  rfl

/-- C9 witness: two runs of the acyclic build produce the same bundle. -/
theorem run_deterministic_witness :
    runCompiler "/r" fsAcy "./index.js" 2 = runCompiler "/r" fsAcy "./index.js" 2 :=
  run_deterministic "/r" "/r" "./index.js" "./index.js" fsAcy fsAcy 2 2
    rfl rfl rfl rfl

/-- C10: a `require` call whose first argument is the string literal `X` is
rewritten — whatever further arguments it carried — to a loader call whose
argument list is exactly the one canonical-id literal: surplus arguments are
silently discarded. -/
theorem require_rewrite_single_argument (pd X : String) (rest : List Expr) :
    rewriteExpr pd (.call (.ident "require") (.strLit X :: rest)) =
      some (.call (.ident "__webpack_require__")
        [.strLit (normalizeModuleName X pd)], [normalizeModuleName X pd]) :=
  rfl

end Toypack